import Mathlib

/-!
Shallow embedding of the Minesweeper knowledge-base agent
(`minesweeper.py`: classes `Sentence` and `MinesweeperAI`).

Cells are integer coordinate pairs.  Python `set` fields are modelled as
`Finset Cell`; the ordered knowledge list is a `List Sentence`.  Loops over
unordered Python sets whose net effect is order-independent are modelled by
their simultaneous set update (certified below by `markSafeSet_insert` /
`markMineSet_insert`).  The self-extending double loop of subset resolution
is modelled index-faithfully with an explicit fuel bound.
-/

abbrev Cell := Int × Int

/-- Embedding of class `Sentence`: a set of cells with a mine count, plus the
two (write-only) bookkeeping sets the constructor initialises to empty.
Python `__eq__` compares only `cells` and `count`. -/
structure Sentence where
  cells : Finset Cell
  count : Int
  safes : Finset Cell
  mines : Finset Cell
deriving DecidableEq

/-- Structural equality used by `Sentence.__eq__` (and hence by `not in`). -/
def Sentence.eqv (a b : Sentence) : Prop :=
  a.cells = b.cells ∧ a.count = b.count

instance (a b : Sentence) : Decidable (a.eqv b) := by
  unfold Sentence.eqv
  infer_instance

/-- Embedding of `Sentence.known_mines`:
`self.cells if len(self.cells) == self.count else set()`. -/
def Sentence.known_mines (s : Sentence) : Finset Cell :=
  if (s.cells.card : Int) = s.count then s.cells else ∅

/-- Embedding of `Sentence.known_safes`:
`self.cells if self.count == 0 else set()`. -/
def Sentence.known_safes (s : Sentence) : Finset Cell :=
  if s.count = 0 then s.cells else ∅

/-- Embedding of `Sentence.mark_mine`: if the cell is present, remove it,
decrement `count` and record it in the sentence's `mines` set. -/
def Sentence.mark_mine (s : Sentence) (c : Cell) : Sentence :=
  if c ∈ s.cells then
    { s with cells := s.cells.erase c, count := s.count - 1, mines := insert c s.mines }
  else s

/-- Embedding of `Sentence.mark_safe`: if the cell is present, remove it
(count unchanged) and record it in the sentence's `safes` set. -/
def Sentence.mark_safe (s : Sentence) (c : Cell) : Sentence :=
  if c ∈ s.cells then
    { s with cells := s.cells.erase c, safes := insert c s.safes }
  else s

/-- Net effect on a sentence of running `mark_safe` over every cell of an
unordered set (the order of the loop does not matter; see
`Sentence.sentMarkSafeSet_insert`). -/
def Sentence.markSafeSet (s : Sentence) (cs : Finset Cell) : Sentence :=
  { s with cells := s.cells \ cs, safes := s.safes ∪ (s.cells ∩ cs) }

/-- Net effect on a sentence of running `mark_mine` over every cell of an
unordered set (order-independent; see `Sentence.sentMarkMineSet_insert`). -/
def Sentence.markMineSet (s : Sentence) (cs : Finset Cell) : Sentence :=
  { s with cells := s.cells \ cs,
           count := s.count - ((s.cells ∩ cs).card : Int),
           mines := s.mines ∪ (s.cells ∩ cs) }

/-- Embedding of class `MinesweeperAI`'s state: board dimensions, the three
global cell sets and the ordered knowledge list. -/
structure AIState where
  height : Nat
  width : Nat
  moves_made : Finset Cell
  safes : Finset Cell
  mines : Finset Cell
  knowledge : List Sentence
deriving DecidableEq

/-- Embedding of `MinesweeperAI.__init__`. -/
def initAI (h w : Nat) : AIState :=
  { height := h, width := w, moves_made := ∅, safes := ∅, mines := ∅, knowledge := [] }

/-- Embedding of `MinesweeperAI.mark_mine`: add the cell to the global mine
set and propagate `Sentence.mark_mine` to every sentence. -/
def AIState.mark_mine (st : AIState) (c : Cell) : AIState :=
  { st with mines := insert c st.mines,
            knowledge := st.knowledge.map (fun s => s.mark_mine c) }

/-- Embedding of `MinesweeperAI.mark_safe`. -/
def AIState.mark_safe (st : AIState) (c : Cell) : AIState :=
  { st with safes := insert c st.safes,
            knowledge := st.knowledge.map (fun s => s.mark_safe c) }

/-- Net effect of the loop `for cell in S: self.mark_safe(cell)` over an
unordered set `S` (order-independent; certified by `markSafeSet_insert`). -/
def AIState.markSafeSet (st : AIState) (cs : Finset Cell) : AIState :=
  { st with safes := st.safes ∪ cs,
            knowledge := st.knowledge.map (fun s => s.markSafeSet cs) }

/-- Net effect of the loop `for cell in S: self.mark_mine(cell)`. -/
def AIState.markMineSet (st : AIState) (cs : Finset Cell) : AIState :=
  { st with mines := st.mines ∪ cs,
            knowledge := st.knowledge.map (fun s => s.markMineSet cs) }

/-- Embedding of the neighbour computation in `add_knowledge` (lines
234-240): the 3x3 block around `cell`, minus `cell` itself and anything
outside the `height` x `width` board. -/
def surroundingCells (h w : Nat) (cell : Cell) : Finset Cell :=
  (((List.range 3).flatMap fun dx =>
      (List.range 3).map fun dy => (cell.1 - 1 + (dx : Int), cell.2 - 1 + (dy : Int))).filter
    fun c => decide (c ≠ cell ∧ 0 ≤ c.1 ∧ c.1 < (h : Int) ∧ 0 ≤ c.2 ∧ c.2 < (w : Int))).toFinset

/-- Collection of `known_safes` over the knowledge list (step 4 of
`add_knowledge`), keeping the Python truthiness guard `if known_safes:`. -/
def collectSafes (k : List Sentence) : Finset Cell :=
  k.foldl (fun acc s => if s.known_safes ≠ ∅ then acc ∪ s.known_safes else acc) ∅

/-- Collection of `known_mines` over the knowledge list (step 4). -/
def collectMines (k : List Sentence) : Finset Cell :=
  k.foldl (fun acc s => if s.known_mines ≠ ∅ then acc ∪ s.known_mines else acc) ∅

/-- One body execution of the double loop of step 5 of `add_knowledge` for a
pair `(s1, s2)`: skip structurally-equal sentences, otherwise try subset
resolution in both directions; a derived sentence is appended only if no
structurally-equal sentence is in the list (`not in` uses `__eq__`). -/
def resolvePair (k : List Sentence) (s1 s2 : Sentence) : List Sentence :=
  if s1.eqv s2 then k
  else if s1.cells ⊆ s2.cells then
    if ∃ s ∈ k, s.eqv ⟨s2.cells \ s1.cells, s2.count - s1.count, ∅, ∅⟩ then k
    else k ++ [⟨s2.cells \ s1.cells, s2.count - s1.count, ∅, ∅⟩]
  else if s2.cells ⊆ s1.cells then
    if ∃ s ∈ k, s.eqv ⟨s1.cells \ s2.cells, s1.count - s2.count, ∅, ∅⟩ then k
    else k ++ [⟨s1.cells \ s2.cells, s1.count - s2.count, ∅, ∅⟩]
  else k

/-- Index-faithful model of the self-extending double `for` loop of step 5:
Python list iteration advances an index and re-checks it against the current
(growing) length, so sentences appended during the loop are also visited.
`fuel` is an upper bound on loop steps; every concrete run below terminates
well within it. -/
def resolveLoop : Nat → List Sentence → Nat → Nat → List Sentence
  | 0, k, _, _ => k
  | fuel + 1, k, i, j =>
    if hi : i < k.length then
      if hj : j < k.length then
        resolveLoop fuel (resolvePair k (k.get ⟨i, hi⟩) (k.get ⟨j, hj⟩)) i (j + 1)
      else
        resolveLoop fuel k (i + 1) 0
    else k

/-- Fuel bound used by `add_knowledge`; ample for all runs considered here. -/
def FUEL : Nat := 1000

/-- Embedding of `MinesweeperAI.add_knowledge`.  Numbered comments match the
numbered regions of the source.  Note that in the source the block at lines
227-232 runs before `surrounding_cells` is populated, so its loops range over
the still-empty set; it is reproduced literally here. -/
def AIState.add_knowledge (st : AIState) (cell : Cell) (count : Int) : AIState :=
  -- 1: self.moves_made.add(cell)
  let st1 := { st with moves_made := insert cell st.moves_made }
  -- 2: self.mark_safe(cell)
  let st2 := st1.mark_safe cell
  -- 3 (lines 225-232): surrounding_cells is still empty here
  let st3 :=
    if count = 0 then st2.markSafeSet ∅
    else if count = (((∅ : Finset Cell).card : Int)) then st2.markMineSet ∅
    else st2
  -- 3 (lines 234-244): compute the neighbour set and append the new Sentence
  let surrounding := surroundingCells st3.height st3.width cell
  let st4 := { st3 with knowledge := st3.knowledge ++ [(⟨surrounding, count, ∅, ∅⟩ : Sentence)] }
  -- 4: collect known safes / mines in one pass, then mark them
  let newSafe := collectSafes st4.knowledge
  let newMine := collectMines st4.knowledge
  let st5 := (st4.markSafeSet newSafe).markMineSet newMine
  -- 5: subset resolution over the growing knowledge list
  { st5 with knowledge := resolveLoop FUEL st5.knowledge 0 0 }

/-- Embedding of `MinesweeperAI.make_safe_move`: the method iterates the
unordered set `self.safes` and returns the first cell not in `moves_made`
(None if there is none), so the set of cells it may return is exactly
`safes \ moves_made`. -/
def safeMoveCandidates (st : AIState) : Finset Cell :=
  st.safes \ st.moves_made

/-- Property of a cell being a possible return value of `make_safe_move`. -/
def make_safe_move_possible (st : AIState) (c : Cell) : Prop :=
  c ∈ st.safes ∧ c ∉ st.moves_made

/-- Operations a game loop can perform on the agent's knowledge base. -/
inductive Op where
  | obs (cell : Cell) (count : Int)
  | mine (cell : Cell)
  | safe (cell : Cell)
deriving DecidableEq

/-- Apply one operation to the state. -/
def applyOp (st : AIState) : Op → AIState
  | .obs c n => st.add_knowledge c n
  | .mine c => st.mark_mine c
  | .safe c => st.mark_safe c

/-- Run a list of operations from a state. -/
def runOps (st : AIState) (ops : List Op) : AIState :=
  ops.foldl applyOp st

/-- An operation is consistent with a fixed mine placement `M` when observed
counts are the true neighbour-mine counts of non-mine cells, `mark_mine` is
only invoked on true mines and `mark_safe` only on true non-mines. -/
def consistentOp (M : Finset Cell) (st : AIState) : Op → Bool
  | .obs c n =>
      decide (c ∉ M ∧ n = ((surroundingCells st.height st.width c ∩ M).card : Int))
  | .mine c => decide (c ∈ M)
  | .safe c => decide (c ∉ M)

/-- A trace of operations is consistent with `M` when each operation is
consistent in the state it is applied to. -/
def consistentOps (M : Finset Cell) (st : AIState) : List Op → Bool
  | [] => true
  | op :: rest => consistentOp M st op && consistentOps M (applyOp st op) rest

/-- Concrete run: observe (0,0) with count 1, then (1,1) with count 1, on an
8x8 board.  Subset resolution derives the sentence
`{(0,0),(0,2),(1,2),(2,0),(2,1),(2,2)} = 0` after the marking pass has
already run, and the base sentence of the second call retains the
already-safe cell (0,0). -/
def runA : AIState :=
  runOps (initAI 8 8) [Op.obs (0, 0) 1, Op.obs (1, 1) 1]

/-- Concrete run: two zero-count observations far apart; both base sentences
are emptied by safe-marking, leaving two structurally-equal sentences. -/
def runB : AIState :=
  runOps (initAI 8 8) [Op.obs (0, 0) 0, Op.obs (5, 5) 0]

/-- Concrete contradictory run: the third observation safe-marks three cells
of the count-3 sentence from the second observation in a single pass,
leaving a sentence with `count = 3` but only two cells. -/
def runC : AIState :=
  runOps (initAI 8 8) [Op.obs (0, 0) 0, Op.obs (0, 2) 3, Op.obs (2, 2) 0]

/-- Concrete contradictory run: the count-5 observation at (0,2) marks all
five of its neighbours as mines, two of which were already marked safe. -/
def runD : AIState :=
  runOps (initAI 8 8) [Op.obs (0, 0) 0, Op.obs (0, 2) 5]

/-- Concrete contradictory run extending `runD` by a count-5 observation at
(1,0): afterwards every cell in `safes \ moves_made` is also in `mines`. -/
def runE : AIState :=
  runOps (initAI 8 8) [Op.obs (0, 0) 0, Op.obs (0, 2) 5, Op.obs (1, 0) 5]

/-- A sentence is true of a mine placement `M` when its count is exactly the
number of its cells that are mines. -/
def Sentence.holdsFor (M : Finset Cell) (s : Sentence) : Prop :=
  s.count = ((s.cells ∩ M).card : Int)

/-- Soundness of a knowledge-base state with respect to a placement `M`:
all sentences are true of `M`, all recorded safes are non-mines and all
recorded mines are mines. -/
def Sound (M : Finset Cell) (st : AIState) : Prop :=
  (∀ s ∈ st.knowledge, s.holdsFor M) ∧ (∀ c ∈ st.safes, c ∉ M) ∧ (∀ c ∈ st.mines, c ∈ M)

/-! ## Basic algebra of the marking operations -/

theorem Sentence.sentMarkSafeSet_empty (s : Sentence) : s.markSafeSet ∅ = s := by
  simp [Sentence.markSafeSet]

theorem Sentence.sentMarkMineSet_empty (s : Sentence) : s.markMineSet ∅ = s := by
  simp [Sentence.markMineSet]

theorem AIState.markSafeSet_empty (st : AIState) : st.markSafeSet ∅ = st := by
  simp [AIState.markSafeSet, Sentence.sentMarkSafeSet_empty]

theorem AIState.markMineSet_empty (st : AIState) : st.markMineSet ∅ = st := by
  simp [AIState.markMineSet, Sentence.sentMarkMineSet_empty]

/-- Certification that `Sentence.markSafeSet` is the net effect of marking
the cells of the set one at a time, in any order. -/
theorem Sentence.sentMarkSafeSet_insert (s : Sentence) (c : Cell) (cs : Finset Cell)
    (hc : c ∉ cs) : s.markSafeSet (insert c cs) = (s.markSafeSet cs).mark_safe c := by
  obtain ⟨cells, count, safes, mines⟩ := s
  by_cases hm : c ∈ cells
  · have hmem : c ∈ cells \ cs := Finset.mem_sdiff.mpr ⟨hm, hc⟩
    simp only [Sentence.markSafeSet, Sentence.mark_safe, hmem, if_pos, Sentence.mk.injEq,
      true_and, and_true]
    refine ⟨?_, ?_⟩
    · ext x
      simp only [Finset.mem_sdiff, Finset.mem_erase, Finset.mem_insert]
      tauto
    · ext x
      by_cases hx : x = c
      · subst hx
        simp [hm]
      · simp only [Finset.mem_union, Finset.mem_insert, Finset.mem_inter, hx, false_or]
  · have hmem : c ∉ cells \ cs := fun h => hm (Finset.mem_sdiff.mp h).1
    simp only [Sentence.markSafeSet, Sentence.mark_safe, hmem, if_neg, not_false_iff,
      Sentence.mk.injEq, true_and, and_true]
    refine ⟨?_, ?_⟩
    · ext x
      by_cases hx : x = c
      · subst hx
        simp [hm]
      · simp only [Finset.mem_sdiff, Finset.mem_insert, hx, false_or]
    · ext x
      by_cases hx : x = c
      · subst hx
        simp [hm, hc]
      · simp only [Finset.mem_union, Finset.mem_inter, Finset.mem_insert, hx, false_or]

/-- Certification that `Sentence.markMineSet` is the net effect of marking
the cells of the set one at a time, in any order. -/
theorem Sentence.sentMarkMineSet_insert (s : Sentence) (c : Cell) (cs : Finset Cell)
    (hc : c ∉ cs) : s.markMineSet (insert c cs) = (s.markMineSet cs).mark_mine c := by
  obtain ⟨cells, count, safes, mines⟩ := s
  by_cases hm : c ∈ cells
  · have hinter : cells ∩ insert c cs = insert c (cells ∩ cs) := by
      ext x
      by_cases hx : x = c
      · subst hx
        simp [hm]
      · simp only [Finset.mem_inter, Finset.mem_insert, hx, false_or]
    have hmem : c ∈ cells \ cs := Finset.mem_sdiff.mpr ⟨hm, hc⟩
    have hni : c ∉ cells ∩ cs := fun h => hc (Finset.mem_inter.mp h).2
    simp only [Sentence.markMineSet, Sentence.mark_mine, hmem, if_pos, Sentence.mk.injEq,
      true_and, and_true]
    refine ⟨?_, ?_, ?_⟩
    · ext x
      simp only [Finset.mem_sdiff, Finset.mem_erase, Finset.mem_insert]
      tauto
    · rw [hinter, Finset.card_insert_of_not_mem hni]
      push_cast
      ring
    · rw [hinter, Finset.union_insert]
  · have hmem : c ∉ cells \ cs := fun h => hm (Finset.mem_sdiff.mp h).1
    have hinter : cells ∩ insert c cs = cells ∩ cs := by
      ext x
      by_cases hx : x = c
      · subst hx
        simp [hm]
      · simp only [Finset.mem_inter, Finset.mem_insert, hx, false_or]
    have hdiff : cells \ insert c cs = cells \ cs := by
      ext x
      by_cases hx : x = c
      · subst hx
        simp [hm]
      · simp only [Finset.mem_sdiff, Finset.mem_insert, hx, false_or]
    simp only [Sentence.markMineSet, Sentence.mark_mine, hmem, if_neg, not_false_iff,
      hinter, hdiff]

/-- Certification of the state-level set marking against the single-cell
`mark_safe`, matching one step of the Python loop. -/
theorem AIState.markSafeSet_insert (st : AIState) (c : Cell) (cs : Finset Cell)
    (hc : c ∉ cs) : st.markSafeSet (insert c cs) = (st.markSafeSet cs).mark_safe c := by
  simp only [AIState.markSafeSet, AIState.mark_safe, List.map_map]
  refine congrArg₂ (fun a b => { st with safes := a, knowledge := b }) ?_ ?_
  · rw [Finset.union_insert]
  · apply List.map_congr_left
    intro s _
    simp only [Function.comp_apply]
    exact Sentence.sentMarkSafeSet_insert s c cs hc

/-- Certification of the state-level set marking against the single-cell
`mark_mine`. -/
theorem AIState.markMineSet_insert (st : AIState) (c : Cell) (cs : Finset Cell)
    (hc : c ∉ cs) : st.markMineSet (insert c cs) = (st.markMineSet cs).mark_mine c := by
  simp only [AIState.markMineSet, AIState.mark_mine, List.map_map]
  refine congrArg₂ (fun a b => { st with mines := a, knowledge := b }) ?_ ?_
  · rw [Finset.union_insert]
  · apply List.map_congr_left
    intro s _
    simp only [Function.comp_apply]
    exact Sentence.sentMarkMineSet_insert s c cs hc

/-! ## Normal form of `add_knowledge` -/

/-- Explicit form of `add_knowledge`: the dead block at lines 227-232 of the
source acts on the empty set and drops away. -/
theorem add_knowledge_eq (st : AIState) (cell : Cell) (count : Int) :
    st.add_knowledge cell count =
      (let k1 := (st.knowledge.map (fun s => s.mark_safe cell)) ++
        [(⟨surroundingCells st.height st.width cell, count, ∅, ∅⟩ : Sentence)]
      let ns := collectSafes k1
      let nm := collectMines k1
      { height := st.height, width := st.width,
        moves_made := insert cell st.moves_made,
        safes := (insert cell st.safes) ∪ ns,
        mines := st.mines ∪ nm,
        knowledge :=
          resolveLoop FUEL
            ((k1.map (fun s => s.markSafeSet ns)).map (fun s => s.markMineSet nm)) 0 0 }) := by
  have hsplit : ∀ st2 : AIState,
      (if count = 0 then st2.markSafeSet ∅
       else if count = (((∅ : Finset Cell).card : Int)) then st2.markMineSet ∅ else st2) =
        st2 := by
    intro st2
    by_cases h0 : count = 0
    · rw [if_pos h0, AIState.markSafeSet_empty]
    · rw [if_neg h0, if_neg (by simpa using h0)]
  simp only [AIState.add_knowledge]
  rw [hsplit]
  simp [AIState.mark_safe, AIState.markSafeSet, AIState.markMineSet]

/-! ## Membership in the collected safe/mine sets -/

theorem mem_collect_aux (f : Sentence → Finset Cell) (k : List Sentence)
    (acc : Finset Cell) (c : Cell)
    (h : c ∈ k.foldl (fun acc s => if f s ≠ ∅ then acc ∪ f s else acc) acc) :
    c ∈ acc ∨ ∃ s ∈ k, c ∈ f s := by
  induction k generalizing acc with
  | nil => exact Or.inl h
  | cons hd tl ih =>
    simp only [List.foldl_cons] at h
    rcases ih _ h with h1 | ⟨s, hs, hcs⟩
    · by_cases hg : f hd ≠ ∅
      · rw [if_pos hg] at h1
        rcases Finset.mem_union.mp h1 with h2 | h2
        · exact Or.inl h2
        · exact Or.inr ⟨hd, List.mem_cons_self _ _, h2⟩
      · rw [if_neg hg] at h1
        exact Or.inl h1
    · exact Or.inr ⟨s, List.mem_cons_of_mem _ hs, hcs⟩

theorem collect_mono_aux (f : Sentence → Finset Cell) (k : List Sentence)
    (acc : Finset Cell) (c : Cell) (h : c ∈ acc) :
    c ∈ k.foldl (fun acc s => if f s ≠ ∅ then acc ∪ f s else acc) acc := by
  induction k generalizing acc with
  | nil => exact h
  | cons hd tl ih =>
    simp only [List.foldl_cons]
    apply ih
    split
    · exact Finset.mem_union_left _ h
    · exact h

theorem mem_collect_of (f : Sentence → Finset Cell) (k : List Sentence) :
    ∀ (acc : Finset Cell) (c : Cell) (s : Sentence), s ∈ k → c ∈ f s →
      c ∈ k.foldl (fun acc s => if f s ≠ ∅ then acc ∪ f s else acc) acc := by
  induction k with
  | nil =>
    intro acc c s hs _
    cases hs
  | cons hd tl ih =>
    intro acc c s hs hc
    simp only [List.foldl_cons]
    rcases List.mem_cons.mp hs with rfl | hs2
    · apply collect_mono_aux
      rw [if_pos (Finset.ne_empty_of_mem hc)]
      exact Finset.mem_union_right _ hc
    · exact ih _ _ _ hs2 hc

theorem mem_collectSafes (k : List Sentence) (c : Cell) (h : c ∈ collectSafes k) :
    ∃ s ∈ k, c ∈ s.known_safes := by
  rcases mem_collect_aux _ _ _ _ h with h1 | h1
  · cases h1
  · exact h1

theorem mem_collectMines (k : List Sentence) (c : Cell) (h : c ∈ collectMines k) :
    ∃ s ∈ k, c ∈ s.known_mines := by
  rcases mem_collect_aux _ _ _ _ h with h1 | h1
  · cases h1
  · exact h1

theorem collectSafes_of_mem (k : List Sentence) (c : Cell) (s : Sentence)
    (hs : s ∈ k) (hc : c ∈ s.known_safes) : c ∈ collectSafes k :=
  mem_collect_of _ k ∅ c s hs hc

/-! ## Truth preservation of sentences under marking and resolution -/

theorem Sentence.holdsFor_mark_safe {M : Finset Cell} {s : Sentence} (hs : s.holdsFor M)
    {c : Cell} (hc : c ∉ M) : (s.mark_safe c).holdsFor M := by
  unfold Sentence.mark_safe
  split
  · unfold Sentence.holdsFor at hs ⊢
    have : s.cells.erase c ∩ M = s.cells ∩ M := by
      ext x
      by_cases hx : x = c
      · subst hx
        simp [hc]
      · simp [Finset.mem_erase, hx]
    simpa [this] using hs
  · exact hs

theorem Sentence.holdsFor_mark_mine {M : Finset Cell} {s : Sentence} (hs : s.holdsFor M)
    {c : Cell} (hc : c ∈ M) : (s.mark_mine c).holdsFor M := by
  unfold Sentence.mark_mine
  split
  case isFalse => exact hs
  · rename_i hmem
    unfold Sentence.holdsFor at hs ⊢
    have hcm : c ∈ s.cells ∩ M := Finset.mem_inter.mpr ⟨hmem, hc⟩
    have herase : s.cells.erase c ∩ M = (s.cells ∩ M).erase c := by
      ext x
      simp only [Finset.mem_inter, Finset.mem_erase]
      tauto
    have hpos : 0 < (s.cells ∩ M).card := Finset.card_pos.mpr ⟨c, hcm⟩
    simp only [herase, Finset.card_erase_of_mem hcm]
    omega

theorem Sentence.holdsFor_markSafeSet {M : Finset Cell} {s : Sentence} (hs : s.holdsFor M)
    {cs : Finset Cell} (hc : ∀ x ∈ cs, x ∉ M) : (s.markSafeSet cs).holdsFor M := by
  unfold Sentence.markSafeSet
  unfold Sentence.holdsFor at hs ⊢
  have : (s.cells \ cs) ∩ M = s.cells ∩ M := by
    ext x
    simp only [Finset.mem_inter, Finset.mem_sdiff]
    constructor
    · tauto
    · rintro ⟨h1, h2⟩
      exact ⟨⟨h1, fun h3 => hc x h3 h2⟩, h2⟩
  simpa [this] using hs

theorem Sentence.holdsFor_markMineSet {M : Finset Cell} {s : Sentence} (hs : s.holdsFor M)
    {cs : Finset Cell} (hc : cs ⊆ M) : (s.markMineSet cs).holdsFor M := by
  unfold Sentence.markMineSet
  unfold Sentence.holdsFor at hs ⊢
  have hsub : s.cells ∩ cs ⊆ s.cells ∩ M := fun x hx => by
    rcases Finset.mem_inter.mp hx with ⟨h1, h2⟩
    exact Finset.mem_inter.mpr ⟨h1, hc h2⟩
  have hdiff : (s.cells \ cs) ∩ M = (s.cells ∩ M) \ (s.cells ∩ cs) := by
    ext x
    simp only [Finset.mem_inter, Finset.mem_sdiff]
    tauto
  have hcard : ((s.cells ∩ M) \ (s.cells ∩ cs)).card =
      (s.cells ∩ M).card - (s.cells ∩ cs).card := Finset.card_sdiff hsub
  have hle : (s.cells ∩ cs).card ≤ (s.cells ∩ M).card := Finset.card_le_card hsub
  simp only [hdiff, hcard]
  omega

/-- Truth of the sentence derived by subset resolution from two true
sentences. -/
theorem Sentence.holdsFor_sdiff {M : Finset Cell} {s1 s2 : Sentence}
    (h1 : s1.holdsFor M) (h2 : s2.holdsFor M) (hsub : s1.cells ⊆ s2.cells) :
    Sentence.holdsFor M ⟨s2.cells \ s1.cells, s2.count - s1.count, ∅, ∅⟩ := by
  unfold Sentence.holdsFor at h1 h2 ⊢
  have hsub2 : s1.cells ∩ M ⊆ s2.cells ∩ M := fun x hx => by
    rcases Finset.mem_inter.mp hx with ⟨ha, hb⟩
    exact Finset.mem_inter.mpr ⟨hsub ha, hb⟩
  have hdiff : (s2.cells \ s1.cells) ∩ M = (s2.cells ∩ M) \ (s1.cells ∩ M) := by
    ext x
    simp only [Finset.mem_inter, Finset.mem_sdiff]
    tauto
  have hcard : ((s2.cells ∩ M) \ (s1.cells ∩ M)).card =
      (s2.cells ∩ M).card - (s1.cells ∩ M).card := Finset.card_sdiff hsub2
  have hle : (s1.cells ∩ M).card ≤ (s2.cells ∩ M).card := Finset.card_le_card hsub2
  simp only [hdiff, hcard]
  omega

/-- Cells extracted by `known_safes` from a true sentence are not mines. -/
theorem Sentence.known_safes_not_mine {M : Finset Cell} {s : Sentence}
    (hs : s.holdsFor M) {c : Cell} (hc : c ∈ s.known_safes) : c ∉ M := by
  unfold Sentence.known_safes at hc
  split at hc
  · rename_i hz
    unfold Sentence.holdsFor at hs
    rw [hz] at hs
    have hcard : (s.cells ∩ M).card = 0 := by omega
    have hempty : s.cells ∩ M = ∅ := Finset.card_eq_zero.mp hcard
    intro hM
    have : c ∈ s.cells ∩ M := Finset.mem_inter.mpr ⟨hc, hM⟩
    rw [hempty] at this
    cases this
  · cases hc

/-- Cells extracted by `known_mines` from a true sentence are mines. -/
theorem Sentence.known_mines_mine {M : Finset Cell} {s : Sentence}
    (hs : s.holdsFor M) {c : Cell} (hc : c ∈ s.known_mines) : c ∈ M := by
  unfold Sentence.known_mines at hc
  split at hc
  · rename_i hz
    unfold Sentence.holdsFor at hs
    have hcard : (s.cells ∩ M).card = s.cells.card := by omega
    have hfull : s.cells ∩ M = s.cells :=
      Finset.eq_of_subset_of_card_le Finset.inter_subset_left (le_of_eq hcard.symm)
    have : c ∈ s.cells ∩ M := hfull.symm ▸ hc
    exact (Finset.mem_inter.mp this).2
  · cases hc

theorem resolvePair_holdsFor {M : Finset Cell} {k : List Sentence} {s1 s2 : Sentence}
    (hk : ∀ s ∈ k, s.holdsFor M) (h1 : s1.holdsFor M) (h2 : s2.holdsFor M) :
    ∀ s ∈ resolvePair k s1 s2, s.holdsFor M := by
  unfold resolvePair
  split
  · exact hk
  split
  · rename_i hsub
    split
    · exact hk
    · intro s hs
      rcases List.mem_append.mp hs with hs2 | hs2
      · exact hk s hs2
      · rcases List.mem_singleton.mp hs2 with rfl
        exact Sentence.holdsFor_sdiff h1 h2 hsub
  split
  · rename_i hsub
    split
    · exact hk
    · intro s hs
      rcases List.mem_append.mp hs with hs2 | hs2
      · exact hk s hs2
      · rcases List.mem_singleton.mp hs2 with rfl
        exact Sentence.holdsFor_sdiff h2 h1 hsub
  · exact hk

theorem resolveLoop_holdsFor {M : Finset Cell} :
    ∀ (fuel : Nat) (k : List Sentence) (i j : Nat),
      (∀ s ∈ k, s.holdsFor M) → ∀ s ∈ resolveLoop fuel k i j, s.holdsFor M := by
  intro fuel
  induction fuel with
  | zero =>
    intro k i j hk
    exact hk
  | succ n ih =>
    intro k i j hk
    unfold resolveLoop
    split
    · rename_i hi
      split
      · rename_i hj
        exact ih _ _ _ (resolvePair_holdsFor hk (hk _ (List.get_mem k _ _))
          (hk _ (List.get_mem k _ _)))
      · exact ih _ _ _ hk
    · exact hk

/-! ## Soundness of the knowledge-base state under consistent operations -/

theorem Sound_mark_safe {M : Finset Cell} {st : AIState} (h : Sound M st)
    {c : Cell} (hc : c ∉ M) : Sound M (st.mark_safe c) := by
  obtain ⟨hknow, hsafe, hmine⟩ := h
  refine ⟨?_, ?_, hmine⟩
  · intro s hs
    rcases List.mem_map.mp hs with ⟨s0, hs0, rfl⟩
    exact Sentence.holdsFor_mark_safe (hknow s0 hs0) hc
  · intro x hx
    rcases Finset.mem_insert.mp hx with rfl | hx2
    · exact hc
    · exact hsafe x hx2

theorem Sound_mark_mine {M : Finset Cell} {st : AIState} (h : Sound M st)
    {c : Cell} (hc : c ∈ M) : Sound M (st.mark_mine c) := by
  obtain ⟨hknow, hsafe, hmine⟩ := h
  refine ⟨?_, hsafe, ?_⟩
  · intro s hs
    rcases List.mem_map.mp hs with ⟨s0, hs0, rfl⟩
    exact Sentence.holdsFor_mark_mine (hknow s0 hs0) hc
  · intro x hx
    rcases Finset.mem_insert.mp hx with rfl | hx2
    · exact hc
    · exact hmine x hx2

theorem Sound_markSafeSet {M : Finset Cell} {st : AIState} (h : Sound M st)
    {cs : Finset Cell} (hc : ∀ x ∈ cs, x ∉ M) : Sound M (st.markSafeSet cs) := by
  obtain ⟨hknow, hsafe, hmine⟩ := h
  refine ⟨?_, ?_, hmine⟩
  · intro s hs
    rcases List.mem_map.mp hs with ⟨s0, hs0, rfl⟩
    exact Sentence.holdsFor_markSafeSet (hknow s0 hs0) hc
  · intro x hx
    rcases Finset.mem_union.mp hx with hx2 | hx2
    · exact hsafe x hx2
    · exact hc x hx2

theorem Sound_markMineSet {M : Finset Cell} {st : AIState} (h : Sound M st)
    {cs : Finset Cell} (hc : cs ⊆ M) : Sound M (st.markMineSet cs) := by
  obtain ⟨hknow, hsafe, hmine⟩ := h
  refine ⟨?_, hsafe, ?_⟩
  · intro s hs
    rcases List.mem_map.mp hs with ⟨s0, hs0, rfl⟩
    exact Sentence.holdsFor_markMineSet (hknow s0 hs0) hc
  · intro x hx
    rcases Finset.mem_union.mp hx with hx2 | hx2
    · exact hmine x hx2
    · exact hc hx2

/-- Soundness is preserved by a consistent observation (`add_knowledge`). -/
theorem Sound_add_knowledge {M : Finset Cell} {st : AIState} (h : Sound M st)
    {cell : Cell} {count : Int} (hcell : cell ∉ M)
    (hcount : count = ((surroundingCells st.height st.width cell ∩ M).card : Int)) :
    Sound M (st.add_knowledge cell count) := by
  have h1 : Sound M ({ st with moves_made := insert cell st.moves_made } : AIState) := h
  have h2 : Sound M (({ st with moves_made := insert cell st.moves_made } : AIState).mark_safe cell) :=
    Sound_mark_safe h1 hcell
  have hbase : Sentence.holdsFor M
      ⟨surroundingCells st.height st.width cell, count, ∅, ∅⟩ := by
    unfold Sentence.holdsFor
    exact hcount
  set st2 := ({ st with moves_made := insert cell st.moves_made } : AIState).mark_safe cell with hst2
  have hdim : st2.height = st.height ∧ st2.width = st.width := ⟨rfl, rfl⟩
  have h4 : Sound M ({ st2 with knowledge :=
      st2.knowledge ++ [⟨surroundingCells st.height st.width cell, count, ∅, ∅⟩] } : AIState) := by
    obtain ⟨hknow, hsafe, hmine⟩ := h2
    refine ⟨?_, hsafe, hmine⟩
    intro s hs
    rcases List.mem_append.mp hs with hs2 | hs2
    · exact hknow s hs2
    · rcases List.mem_singleton.mp hs2 with rfl
      exact hbase
  set st4 := ({ st2 with knowledge :=
      st2.knowledge ++ [⟨surroundingCells st.height st.width cell, count, ∅, ∅⟩] } : AIState) with hst4
  have hns : ∀ x ∈ collectSafes st4.knowledge, x ∉ M := by
    intro x hx
    rcases mem_collectSafes _ _ hx with ⟨s, hs, hxs⟩
    exact Sentence.known_safes_not_mine (h4.1 s hs) hxs
  have hnm : collectMines st4.knowledge ⊆ M := by
    intro x hx
    rcases mem_collectMines _ _ hx with ⟨s, hs, hxs⟩
    exact Sentence.known_mines_mine (h4.1 s hs) hxs
  have h5 : Sound M ((st4.markSafeSet (collectSafes st4.knowledge)).markMineSet
      (collectMines st4.knowledge)) :=
    Sound_markMineSet (Sound_markSafeSet h4 hns) hnm
  set st5 := (st4.markSafeSet (collectSafes st4.knowledge)).markMineSet
      (collectMines st4.knowledge) with hst5
  have h6 : Sound M ({ st5 with knowledge := resolveLoop FUEL st5.knowledge 0 0 } : AIState) := by
    obtain ⟨hknow, hsafe, hmine⟩ := h5
    exact ⟨resolveLoop_holdsFor FUEL st5.knowledge 0 0 hknow, hsafe, hmine⟩
  have heq : st.add_knowledge cell count =
      ({ st5 with knowledge := resolveLoop FUEL st5.knowledge 0 0 } : AIState) := by
    rw [add_knowledge_eq]
    rw [hst5, hst4, hst2]
    simp [AIState.mark_safe, AIState.markSafeSet, AIState.markMineSet]
  rw [heq]
  exact h6

/-- Soundness is preserved along any trace of operations consistent with a
fixed mine placement. -/
theorem Sound_runOps {M : Finset Cell} :
    ∀ (ops : List Op) (st : AIState), Sound M st → consistentOps M st ops = true →
      Sound M (runOps st ops) := by
  intro ops
  induction ops with
  | nil =>
    intro st h _
    exact h
  | cons op rest ih =>
    intro st h hc
    rcases Bool.and_eq_true_iff.mp hc with ⟨hop, hrest⟩
    have hnext : Sound M (applyOp st op) := by
      cases op with
      | obs c n =>
        simp only [consistentOp, decide_eq_true_eq] at hop
        exact Sound_add_knowledge h hop.1 hop.2
      | mine c =>
        simp only [consistentOp, decide_eq_true_eq] at hop
        exact Sound_mark_mine h hop
      | safe c =>
        simp only [consistentOp, decide_eq_true_eq] at hop
        exact Sound_mark_safe h hop
    exact ih (applyOp st op) hnext hrest

theorem Sound_init (M : Finset Cell) (h w : Nat) : Sound M (initAI h w) := by
  refine ⟨?_, ?_, ?_⟩ <;> intro x hx <;> cases hx

/-! ## The observed cell never re-enters a sentence -/

theorem not_mem_surroundingCells_self (h w : Nat) (cell : Cell) :
    cell ∉ surroundingCells h w cell := by
  unfold surroundingCells
  intro hmem
  rcases List.mem_filter.mp (List.mem_toFinset.mp hmem) with ⟨_, hdec⟩
  rcases of_decide_eq_true hdec with ⟨hne, _⟩
  exact hne rfl

theorem Sentence.not_mem_mark_safe_self (s : Sentence) (c : Cell) :
    c ∉ (s.mark_safe c).cells := by
  unfold Sentence.mark_safe
  split
  · exact Finset.not_mem_erase _ _
  · assumption

theorem Sentence.markSafeSet_cells_subset (s : Sentence) (cs : Finset Cell) :
    (s.markSafeSet cs).cells ⊆ s.cells := by
  unfold Sentence.markSafeSet
  exact Finset.sdiff_subset

theorem Sentence.markMineSet_cells_subset (s : Sentence) (cs : Finset Cell) :
    (s.markMineSet cs).cells ⊆ s.cells := by
  unfold Sentence.markMineSet
  exact Finset.sdiff_subset

theorem resolvePair_not_mem {c : Cell} {k : List Sentence} {s1 s2 : Sentence}
    (hk : ∀ s ∈ k, c ∉ s.cells) (h1 : c ∉ s1.cells) (h2 : c ∉ s2.cells) :
    ∀ s ∈ resolvePair k s1 s2, c ∉ s.cells := by
  unfold resolvePair
  split
  · exact hk
  split
  · split
    · exact hk
    · intro s hs
      rcases List.mem_append.mp hs with hs2 | hs2
      · exact hk s hs2
      · rcases List.mem_singleton.mp hs2 with rfl
        exact fun hmem => h2 (Finset.mem_sdiff.mp hmem).1
  split
  · split
    · exact hk
    · intro s hs
      rcases List.mem_append.mp hs with hs2 | hs2
      · exact hk s hs2
      · rcases List.mem_singleton.mp hs2 with rfl
        exact fun hmem => h1 (Finset.mem_sdiff.mp hmem).1
  · exact hk

theorem resolveLoop_not_mem {c : Cell} :
    ∀ (fuel : Nat) (k : List Sentence) (i j : Nat),
      (∀ s ∈ k, c ∉ s.cells) → ∀ s ∈ resolveLoop fuel k i j, c ∉ s.cells := by
  intro fuel
  induction fuel with
  | zero =>
    intro k i j hk
    exact hk
  | succ n ih =>
    intro k i j hk
    unfold resolveLoop
    split
    · split
      · exact ih _ _ _ (resolvePair_not_mem hk (hk _ (List.get_mem k _ _))
          (hk _ (List.get_mem k _ _)))
      · exact ih _ _ _ hk
    · exact hk

/-! ## Claim theorems -/

/-- Claim C8: starting from a fresh knowledge base on an 8x8 board, a single call
to `add_knowledge` with cell (2,2) and count 0 leaves all 8 Moore neighbours
of (2,2) in the `safes` set. -/
theorem c8_zero_count_example :
    ((1, 1) : Cell) ∈ ((initAI 8 8).add_knowledge (2, 2) 0).safes ∧
    ((1, 2) : Cell) ∈ ((initAI 8 8).add_knowledge (2, 2) 0).safes ∧
    ((1, 3) : Cell) ∈ ((initAI 8 8).add_knowledge (2, 2) 0).safes ∧
    ((2, 1) : Cell) ∈ ((initAI 8 8).add_knowledge (2, 2) 0).safes ∧
    ((2, 3) : Cell) ∈ ((initAI 8 8).add_knowledge (2, 2) 0).safes ∧
    ((3, 1) : Cell) ∈ ((initAI 8 8).add_knowledge (2, 2) 0).safes ∧
    ((3, 2) : Cell) ∈ ((initAI 8 8).add_knowledge (2, 2) 0).safes ∧
    ((3, 3) : Cell) ∈ ((initAI 8 8).add_knowledge (2, 2) 0).safes := by
  decide

/-- Claim C9: for every sentence, `known_mines` contains exactly the cells of the
sentence when `count` equals the number of cells and nothing otherwise, and
`known_safes` contains exactly the cells when `count = 0` and nothing
otherwise; in all cases the returned set is the full cell set or empty. -/
theorem c9_known_mines_safes_spec (s : Sentence) (c : Cell) :
    (c ∈ s.known_mines ↔ ((s.cells.card : Int) = s.count ∧ c ∈ s.cells)) ∧
    (c ∈ s.known_safes ↔ (s.count = 0 ∧ c ∈ s.cells)) ∧
    (s.known_mines = s.cells ∨ s.known_mines = ∅) ∧
    (s.known_safes = s.cells ∨ s.known_safes = ∅) := by
  unfold Sentence.known_mines Sentence.known_safes
  refine ⟨?_, ?_, ?_, ?_⟩
  · split
    · rename_i hcond
      simp [hcond]
    · rename_i hcond
      simp [hcond]
  · split
    · rename_i hcond
      simp [hcond]
    · rename_i hcond
      simp [hcond]
  · split
    · exact Or.inl rfl
    · exact Or.inr rfl
  · split
    · exact Or.inl rfl
    · exact Or.inr rfl

/-- Claim C10 (implicit): after any `add_knowledge(cell, count)` call, from any
starting state, the observed cell is in `moves_made` and in `safes`, and is
in no sentence's cell set — not the base sentence, not a pre-existing
sentence, not a resolution-derived sentence. -/
theorem c10_observed_cell_removed (st : AIState) (cell : Cell) (count : Int) :
    cell ∈ (st.add_knowledge cell count).moves_made ∧
    cell ∈ (st.add_knowledge cell count).safes ∧
    ∀ s ∈ (st.add_knowledge cell count).knowledge, cell ∉ s.cells := by
  rw [add_knowledge_eq]
  refine ⟨Finset.mem_insert_self _ _, Finset.mem_union_left _ (Finset.mem_insert_self _ _), ?_⟩
  apply resolveLoop_not_mem
  intro s hs
  rcases List.mem_map.mp hs with ⟨s1, hs1, rfl⟩
  rcases List.mem_map.mp hs1 with ⟨s2, hs2, rfl⟩
  have hbase : cell ∉ s2.cells := by
    rcases List.mem_append.mp hs2 with h2 | h2
    · rcases List.mem_map.mp h2 with ⟨s3, _, rfl⟩
      exact Sentence.not_mem_mark_safe_self s3 cell
    · rcases List.mem_singleton.mp h2 with rfl
      exact not_mem_surroundingCells_self _ _ _
  intro hmem
  exact hbase (Sentence.markSafeSet_cells_subset _ _ (Sentence.markMineSet_cells_subset _ _ hmem))

/-- Claim C6: `Sentence.mark_mine` on a cell of a zero-count sentence silently
drives the count to -1; no consistency error of any kind is raised (the
embedded operation is total and returns the corrupted sentence). -/
theorem c6_mark_mine_negative_count :
    (Sentence.mark_mine ⟨{((0, 0) : Cell)}, 0, ∅, ∅⟩ (0, 0)).count = -1 := by
  decide

/-- Claim C1 counterexample: after the reachable two-observation run `runA`, the
knowledge base is not at a local deduction fixpoint — one more application
of trivial extraction (globally marking `known_safes` of every sentence)
changes the `safes` set, because subset resolution derived a zero-count
sentence after the single marking pass had already run. -/
theorem c1_not_fixpoint_counterexample :
    (AIState.markSafeSet runA (collectSafes runA.knowledge)).safes ≠ runA.safes ∧
    ∃ s ∈ runA.knowledge, s.count = 0 ∧ ¬ s.cells ⊆ runA.safes := by
  decide

/-- Claim C1 (amended): `add_knowledge` runs a single trivial-extraction pass over
the knowledge base (including the just-inserted base sentence) before subset
resolution, rather than iterating to a fixpoint; in particular a count-0
observation marks every in-bounds neighbour of the observed cell safe within
the same call. -/
theorem c1_zero_count_single_pass (st : AIState) (cell c : Cell)
    (hc : c ∈ surroundingCells st.height st.width cell) :
    c ∈ (st.add_knowledge cell 0).safes := by
  rw [add_knowledge_eq]
  apply Finset.mem_union_right
  apply collectSafes_of_mem _ c
    (⟨surroundingCells st.height st.width cell, 0, ∅, ∅⟩ : Sentence)
  · exact List.mem_append_right _ (List.mem_singleton_self _)
  · unfold Sentence.known_safes
    simpa using hc

set_option maxHeartbeats 1000000 in
/-- Witness for `c1_zero_count_single_pass` at a concrete input. -/
theorem c1_zero_count_single_pass_witness :
    ((2, 2) : Cell) ∈ surroundingCells (initAI 8 8).height (initAI 8 8).width (3, 3) ∧
    ((2, 2) : Cell) ∈ ((initAI 8 8).add_knowledge (3, 3) 0).safes :=
  ⟨by decide, c1_zero_count_single_pass (initAI 8 8) (3, 3) (2, 2) (by decide)⟩

/-- Claim C2: contrary to the claim, the base sentence is inserted without being
normalized against current knowledge.  In `runA`, the cell (0,0) is already
in `safes` after the first observation, yet after the second call the
knowledge base still holds a sentence whose cell set contains (0,0). -/
theorem c2_unnormalized_insertion :
    ((0, 0) : Cell) ∈ (runOps (initAI 8 8) [Op.obs (0, 0) 1]).safes ∧
    ∃ s ∈ runA.knowledge, ((0, 0) : Cell) ∈ s.cells ∧ ((0, 0) : Cell) ∈ runA.safes := by
  decide

/-- Claim C3 counterexample: after the reachable run `runB`, the knowledge base
holds two structurally-equal sentences (both emptied to cell set ∅ with
count 0), violating the no-duplicates invariant. -/
theorem c3_duplicate_counterexample :
    ¬ List.Pairwise (fun a b => ¬ Sentence.eqv a b) runB.knowledge := by
  decide

/-- Claim C3 (amended): the subset-resolution insertion path does check for a
structurally-equal sentence before appending — whenever `resolvePair`
appends a derived sentence, no structurally-equal sentence was present —
but the base sentence is appended unconditionally and in-place mutation can
later make two stored sentences structurally equal. -/
theorem c3_derived_insert_guard (k : List Sentence) (s1 s2 : Sentence) :
    resolvePair k s1 s2 = k ∨
    ∃ ns, resolvePair k s1 s2 = k ++ [ns] ∧ ∀ s ∈ k, ¬ s.eqv ns := by
  unfold resolvePair
  split
  · exact Or.inl rfl
  split
  · split
    · exact Or.inl rfl
    · rename_i hguard
      push_neg at hguard
      exact Or.inr ⟨_, rfl, hguard⟩
  split
  · split
    · exact Or.inl rfl
    · rename_i hguard
      push_neg at hguard
      exact Or.inr ⟨_, rfl, hguard⟩
  · exact Or.inl rfl

set_option maxHeartbeats 1000000 in
/-- Claim C4 counterexample: after the reachable contradictory run `runC`, the
knowledge base holds a sentence whose count (3) exceeds its cell-set size
(2), so `0 ≤ count ≤ |cells|` does not hold after arbitrary call sequences. -/
theorem c4_count_exceeds_cells_counterexample :
    ∃ s ∈ runC.knowledge, (s.cells.card : Int) < s.count := by
  decide

/-- Claim C4 (amended): provided the call sequence is consistent with some fixed
mine placement (each observed count is the true neighbour-mine count of a
non-mine cell, `mark_mine` is applied only to true mines and `mark_safe`
only to true non-mines), every sentence satisfies `0 ≤ count ≤ |cells|` at
all times. -/
theorem c4_count_bounds_consistent (h w : Nat) (M : Finset Cell) (ops : List Op)
    (hcons : consistentOps M (initAI h w) ops = true) :
    ∀ s ∈ (runOps (initAI h w) ops).knowledge,
      0 ≤ s.count ∧ s.count ≤ (s.cells.card : Int) := by
  have hsound := Sound_runOps ops (initAI h w) (Sound_init M h w) hcons
  intro s hs
  have htrue := hsound.1 s hs
  unfold Sentence.holdsFor at htrue
  have hle : (s.cells ∩ M).card ≤ s.cells.card :=
    Finset.card_le_card Finset.inter_subset_left
  omega

set_option maxHeartbeats 1000000 in
/-- Witness for `c4_count_bounds_consistent` on a consistent one-move trace. -/
theorem c4_count_bounds_consistent_witness :
    consistentOps {((5, 5) : Cell)} (initAI 8 8) [Op.obs (0, 0) 0] = true ∧
    ∀ s ∈ (runOps (initAI 8 8) [Op.obs (0, 0) 0]).knowledge,
      0 ≤ s.count ∧ s.count ≤ (s.cells.card : Int) :=
  ⟨by decide, c4_count_bounds_consistent 8 8 {((5, 5) : Cell)} [Op.obs (0, 0) 0] (by decide)⟩

set_option maxHeartbeats 1000000 in
/-- Claim C5 counterexample: after the reachable contradictory run `runD`, the
cell (0,1) is simultaneously in `safes` and in `mines`, so the disjointness
invariant does not hold after arbitrary call sequences. -/
theorem c5_safes_mines_overlap_counterexample :
    ((0, 1) : Cell) ∈ runD.safes ∧ ((0, 1) : Cell) ∈ runD.mines := by
  decide

/-- Claim C5 (amended): provided the call sequence is consistent with some fixed
mine placement, `safes` and `mines` are disjoint at all times. -/
theorem c5_disjoint_consistent (h w : Nat) (M : Finset Cell) (ops : List Op)
    (hcons : consistentOps M (initAI h w) ops = true) :
    (runOps (initAI h w) ops).safes ∩ (runOps (initAI h w) ops).mines = ∅ := by
  have hsound := Sound_runOps ops (initAI h w) (Sound_init M h w) hcons
  apply Finset.eq_empty_iff_forall_not_mem.mpr
  intro c hc
  rcases Finset.mem_inter.mp hc with ⟨h1, h2⟩
  exact hsound.2.1 c h1 (hsound.2.2 c h2)

set_option maxHeartbeats 1000000 in
/-- Witness for `c5_disjoint_consistent` on a consistent one-move trace. -/
theorem c5_disjoint_consistent_witness :
    consistentOps {((3, 3) : Cell)} (initAI 8 8) [Op.obs (1, 1) 0] = true ∧
    (runOps (initAI 8 8) [Op.obs (1, 1) 0]).safes ∩
      (runOps (initAI 8 8) [Op.obs (1, 1) 0]).mines = ∅ :=
  ⟨by decide, c5_disjoint_consistent 8 8 {((3, 3) : Cell)} [Op.obs (1, 1) 0] (by decide)⟩

set_option maxHeartbeats 1000000 in
/-- Claim C7 counterexample: after the reachable contradictory run `runE`, the set
of cells `make_safe_move` can return (`safes \ moves_made`) is nonempty and
entirely contained in `mines`, so regardless of the unspecified iteration
order the method returns a cell that is in `mines`. -/
theorem c7_safe_move_mine_counterexample :
    safeMoveCandidates runE ≠ ∅ ∧ safeMoveCandidates runE ⊆ runE.mines := by
  decide

/-- Claim C7 (amended): `make_safe_move` never returns a cell in `moves_made`
(every possible return value is in `safes` and outside `moves_made`, and it
returns none exactly when no such cell exists); it never returns a cell in
`mines` provided the trace is consistent with some mine placement — in
contradictory reachable states it can return a mine. -/
theorem c7_safe_move_consistent (h w : Nat) (M : Finset Cell) (ops : List Op)
    (hcons : consistentOps M (initAI h w) ops = true) :
    ∀ c, make_safe_move_possible (runOps (initAI h w) ops) c →
      c ∉ (runOps (initAI h w) ops).moves_made ∧ c ∉ (runOps (initAI h w) ops).mines := by
  have hsound := Sound_runOps ops (initAI h w) (Sound_init M h w) hcons
  intro c hc
  obtain ⟨hsafe, hmoves⟩ := hc
  refine ⟨hmoves, fun hmine => ?_⟩
  exact hsound.2.1 c hsafe (hsound.2.2 c hmine)

set_option maxHeartbeats 1000000 in
/-- Witness for `c7_safe_move_consistent` on a consistent one-move trace. -/
theorem c7_safe_move_consistent_witness :
    consistentOps {((4, 4) : Cell)} (initAI 8 8) [Op.obs (2, 3) 0] = true ∧
    (make_safe_move_possible (runOps (initAI 8 8) [Op.obs (2, 3) 0]) (1, 2) →
      ((1, 2) : Cell) ∉ (runOps (initAI 8 8) [Op.obs (2, 3) 0]).moves_made ∧
      ((1, 2) : Cell) ∉ (runOps (initAI 8 8) [Op.obs (2, 3) 0]).mines) :=
  ⟨by decide,
    c7_safe_move_consistent 8 8 {((4, 4) : Cell)} [Op.obs (2, 3) 0] (by decide) (1, 2)⟩
